import Mathlib

/-!
Shallow embedding of the `expressots` yeoman scaffolding generator
(`generators/*/index.ts` and `expressots.config.ts`).

Strings are modelled as `List Char` at the core, with `String` wrappers.
JavaScript's `String.prototype.toUpperCase` / `toLowerCase` are modelled
per character by `Char.toUpper` / `Char.toLower` (the ASCII simple case
mapping, which is what the generator's identifier inputs exercise).
-/

namespace Expresso

/-- Character class of the regex `[_\-\s]+` used by `_toPascalCase`:
underscore, hyphen, or an ECMAScript `\s` whitespace code point. -/
def isSepChar (c : Char) : Bool :=
  let n := c.toNat
  n = 95 || n = 45 || n = 9 || n = 10 || n = 11 || n = 12 || n = 13 ||
  n = 32 || n = 160 || n = 5760 || (8192 ≤ n && n ≤ 8202) || n = 8232 ||
  n = 8233 || n = 8239 || n = 8287 || n = 12288 || n = 65279

/-- Character class of `[A-Z]` (the lookahead in `_toPascalCase` and the
second group in `_toKebabCase`'s regex). -/
def isUpChar (c : Char) : Bool :=
  65 ≤ c.toNat && c.toNat ≤ 90

/-- Character class of `[a-z]` (the first group in `_toKebabCase`'s regex). -/
def isLowChar (c : Char) : Bool :=
  97 ≤ c.toNat && c.toNat ≤ 122

/-- `str.split(/[_\-\s]+|(?=[A-Z])/)` following the ECMAScript `split`
algorithm specialised to this regex: a maximal run of separator characters
delimits (yielding the possibly-empty segment before it), and a zero-width
boundary is taken before each `[A-Z]` character except when the current
segment is still empty (an empty match at the segment start is skipped).
`acc` holds the current segment reversed; `inSep` records that we are inside
a separator run (so further separators extend the run instead of delimiting
again). -/
def splitGo (inSep : Bool) (acc : List Char) : List Char → List (List Char)
  | [] => [acc.reverse]
  | c :: rest =>
    if isSepChar c then
      if inSep then splitGo true [] rest
      else acc.reverse :: splitGo true [] rest
    else if isUpChar c then
      if acc.isEmpty then splitGo false [c] rest
      else acc.reverse :: splitGo false [c] rest
    else splitGo false (c :: acc) rest

/-- The word list produced by `str.split(/[_\-\s]+|(?=[A-Z])/)`. -/
def splitWords (cs : List Char) : List (List Char) :=
  splitGo false [] cs

/-- `word => word.charAt(0).toUpperCase() + word.slice(1).toLowerCase()`. -/
def wordPascal : List Char → List Char
  | [] => []
  | c :: rest => Char.toUpper c :: rest.map Char.toLower

/-- `_toPascalCase` on character lists: split, capitalise each word, join
with no separator. -/
def pascalList (cs : List Char) : List Char :=
  ((splitWords cs).map wordPascal).flatten

/-- `private _toPascalCase(str)` from the generator:
`str.split(/[_\-\s]+|(?=[A-Z])/).map(word => word.charAt(0).toUpperCase() +
word.slice(1).toLowerCase()).join('')`. -/
def _toPascalCase (s : String) : String :=
  ⟨pascalList s.data⟩

/-- One pass of `str.replace(/([a-z])([A-Z])/g, '$1-$2')`: each match
consumes a lowercase/uppercase pair and inserts a hyphen between them;
scanning resumes after the consumed pair. -/
def kebabRep : List Char → List Char
  | [] => []
  | [c] => [c]
  | c1 :: c2 :: rest =>
    if isLowChar c1 && isUpChar c2 then
      c1 :: '-' :: c2 :: kebabRep rest
    else
      c1 :: kebabRep (c2 :: rest)

/-- `_toKebabCase` on character lists: hyphenate camel boundaries, then
lowercase everything. -/
def kebabList (cs : List Char) : List Char :=
  (kebabRep cs).map Char.toLower

/-- `private _toKebabCase(str)` from the generator:
`str.replace(/([a-z])([A-Z])/g, '$1-$2').toLowerCase()`. -/
def _toKebabCase (s : String) : String :=
  ⟨kebabList s.data⟩

/-- The `Pattern` enum of `expressots.config.ts` and the generator:
`lowercase`, `kebab-case`, `PascalCase`, `camelCase`. -/
inductive Pattern
  | lowercase
  | kebabCase
  | pascalCase
  | camelCase
deriving DecidableEq, Repr

/-- `str.toLowerCase()` (the `Pattern.LOWER_CASE` branch). -/
def jsToLowerCase (s : String) : String :=
  ⟨s.data.map Char.toLower⟩

/-- `name.charAt(0).toLowerCase() + name.slice(1)` (the `Pattern.CAMEL_CASE`
branch). -/
def jsCamelize (s : String) : String :=
  ⟨match s.data with
   | [] => []
   | c :: rest => Char.toLower c :: rest⟩

/-- The `switch (this.expressoConfig.scaffoldPattern)` in `writing()`.
A `scaffoldPattern` absent from the loaded config is `undefined` in
JavaScript (modelled as `none`); the switch has no matching case then and
leaves `name` unchanged. -/
def applyPattern (pat : Option Pattern) (name : String) : String :=
  match pat with
  | some .lowercase => jsToLowerCase name
  | some .kebabCase => _toKebabCase name
  | some .pascalCase => _toPascalCase name
  | some .camelCase => jsCamelize name
  | none => name

/-- The values `writing()` computes for one generated file: the folder
passed to `mkdir`, the destination path passed to `copyTpl`, and the
`className` substituted into the template. -/
structure WriteResult where
  folder : String
  file : String
  className : String
deriving DecidableEq, Repr

/-- `writing()` from the generator: normalise the answered name per the
configured pattern, then `mkdir src/<name>`, copy the schematic template to
`src/<name>/<name>.<schematic>.ts`, substituting
`className: this._toPascalCase(name)` (note: applied to the already
pattern-normalised `name`). -/
def writing (pat : Option Pattern) (schematic name : String) : WriteResult :=
  let name' := applyPattern pat name
  { folder := "src/" ++ name'
    file := "src/" ++ name' ++ "/" ++ name' ++ "." ++ schematic ++ ".ts"
    className := _toPascalCase name' }

/-- The allowed-schematic list of `_schematicValidation`. -/
def schematicOptions : List String :=
  ["usecase", "controller", "dto", "service"]

/-- `private _schematicValidation()`: `!options.includes(this.answers.schematic)`. -/
def _schematicValidation (schematic : String) : Bool :=
  !(schematicOptions.contains schematic)

/-- The message of the error raised by `validate()`. -/
def unsupportedMessage (schematic : String) : String :=
  "The schematic " ++ schematic ++
  " is not supported. Please use one of the following: usecase, controller, service"

/-- `validate()` from the generator: raises `env.error` with
`unsupportedMessage` when `_schematicValidation()` is true, otherwise does
nothing. `some msg` models the raised fatal error. -/
def validate (schematic : String) : Option String :=
  if _schematicValidation schematic then some (unsupportedMessage schematic)
  else none

/-- The message of the error raised by `initializing()` when
`expressots.config.ts` is missing. -/
def configMissingMessage : String :=
  "The expressots.config.ts file is missing. Please create it in the root of your project."

/-- `initializing()` from the generator: fail with `configMissingMessage`
when the config file does not exist, otherwise load
`{...require('expressots.config.ts').config}` (whose `scaffoldPattern`
field may be absent, i.e. `none`). -/
def initializing (configExists : Bool) (cfg : Option Pattern) :
    Except String (Option Pattern) :=
  if !configExists then .error configMissingMessage
  else .ok cfg

/-- The two interactive prompts `prompting()` can issue. -/
inductive PromptEvent
  | schematicPrompt
  | namePrompt (message : String)
deriving DecidableEq, Repr

/-- `prompting()` from the generator. Each prompt fires only when the
corresponding CLI option is absent (its `when:` field); the resolved value
is `answer ?? this.options.x`. The name prompt's message interpolates the
already-resolved schematic. Returns the prompt events issued in order and
the resolved `answers`. -/
def prompting (optSchematic optName : Option String)
    (ansSchematic ansName : String) :
    List PromptEvent × String × String :=
  let schematicEvents := if optSchematic.isNone then [PromptEvent.schematicPrompt] else []
  let schematic := match optSchematic with
    | some s => s
    | none => ansSchematic
  let nameEvents := if optName.isNone
    then [PromptEvent.namePrompt ("What is the name of the " ++ schematic ++ "?")]
    else []
  let name := match optName with
    | some n => n
    | none => ansName
  (schematicEvents ++ nameEvents, schematic, name)

/-- Outcome of one generator run: the prompt events issued, and either the
first fatal error or the write result. -/
structure RunResult where
  prompts : List PromptEvent
  outcome : Except String WriteResult
deriving Repr

/-- Modelled from the spec: the host run-loop (not part of this repository's
sources) invokes the generator's lifecycle methods in the order
`initializing`, `prompting`, `validate`, `writing`, and a fatal `env.error`
aborts the run so no later step executes and no later prompt is issued. -/
def run (configExists : Bool) (cfg : Option Pattern)
    (optSchematic optName : Option String)
    (ansSchematic ansName : String) : RunResult :=
  match initializing configExists cfg with
  | .error e => { prompts := [], outcome := .error e }
  | .ok pat =>
    let (events, schematic, name) := prompting optSchematic optName ansSchematic ansName
    match validate schematic with
    | some e => { prompts := events, outcome := .error e }
    | none => { prompts := events, outcome := .ok (writing pat schematic name) }

example : _toPascalCase "user_profile" = "UserProfile" := by decide
example : _toPascalCase "user-profile" = "UserProfile" := by decide
example : _toPascalCase "userProfile" = "UserProfile" := by decide
example : _toPascalCase "" = "" := by decide
example : _toPascalCase "_- " = "" := by decide
example : _toKebabCase "UserProfile" = "user-profile" := by decide
example : _toKebabCase "already-kebab" = "already-kebab" := by decide
example : _toKebabCase "user_profile" = "user_profile" := by decide
example : _toPascalCase "order-total" = "OrderTotal" := by decide

example :
    writing (some .kebabCase) "usecase" "OrderTotal" =
      { folder := "src/order-total"
        file := "src/order-total/order-total.usecase.ts"
        className := "OrderTotal" } := by decide

example : (writing (some .lowercase) "usecase" "OrderTotal").className = "Ordertotal" := by
  decide

example : (writing none "usecase" "UserProfile").folder = "src/UserProfile" := by decide

example : validate "widget" =
    some "The schematic widget is not supported. Please use one of the following: usecase, controller, service" := by
  decide

example : validate "dto" = none := by decide

example : run false (some .kebabCase) none none "usecase" "Foo" =
    { prompts := [], outcome := .error configMissingMessage } := rfl

/-- The default of the `spec` CLI option, from the constructor:
`this.option('spec', {type: Boolean, default: true, ...})`. -/
def specOptionDefault : Bool := true

/-- The artifact paths emitted by `writing()`: the body performs exactly one
`copyTpl` call (to the schematic's target file) and never reads
`this.options.spec`; the `specOption` parameter carries the option's value
to record that the emission is independent of it. -/
def writingEmittedFiles (_specOption : Bool) (pat : Option Pattern)
    (schematic name : String) : List String :=
  [(writing pat schematic name).file]

/-- Invariant on the (reversed) segment accumulator of `splitGo` while
re-splitting an already-Pascal-cased string: the segment's first character
is `Char.toUpper`-fixed and the rest is `Char.toLower`-fixed. -/
def accInv (acc : List Char) : Prop :=
  ∀ h t, acc.reverse = h :: t →
    Char.toUpper h = h ∧ ∀ c ∈ t, Char.toLower c = c

/-- Modelled from the spec: "insert a hyphen between every adjacent
lowercase-then-uppercase letter pair, then lowercase the whole string",
written as a direct single pass that looks at each adjacent pair once.
Used as the specification-side definition to compare `_toKebabCase`
against. -/
def kebabSpec : List Char → List Char
  | [] => []
  | [c] => [Char.toLower c]
  | c1 :: c2 :: rest =>
    if isLowChar c1 && isUpChar c2 then
      Char.toLower c1 :: '-' :: kebabSpec (c2 :: rest)
    else
      Char.toLower c1 :: kebabSpec (c2 :: rest)

/-! ### Character-level facts about the ASCII case maps -/

theorem toNat_ofNat_valid {n : Nat} (h : n.isValidChar) : (Char.ofNat n).toNat = n := by
  simp only [Char.ofNat, h, dite_true, Char.ofNatAux, Char.toNat]
  simp [UInt32.toNat]

theorem toUpper_toNat (c : Char) :
    (Char.toUpper c).toNat =
      if 97 ≤ c.toNat ∧ c.toNat ≤ 122 then c.toNat - 32 else c.toNat := by
  unfold Char.toUpper
  simp only [ge_iff_le]
  split
  case isTrue h =>
    exact toNat_ofNat_valid (Or.inl (by omega))
  case isFalse h =>
    rfl

theorem toLower_toNat (c : Char) :
    (Char.toLower c).toNat =
      if 65 ≤ c.toNat ∧ c.toNat ≤ 90 then c.toNat + 32 else c.toNat := by
  unfold Char.toLower
  simp only [ge_iff_le]
  split
  case isTrue h =>
    exact toNat_ofNat_valid (Or.inl (by omega))
  case isFalse h =>
    rfl

theorem char_eq_of_toNat_eq {c d : Char} (h : c.toNat = d.toNat) : c = d := by
  rw [← Char.ofNat_toNat c, ← Char.ofNat_toNat d, h]

theorem isUpChar_iff {c : Char} : isUpChar c = true ↔ 65 ≤ c.toNat ∧ c.toNat ≤ 90 := by
  simp [isUpChar]

theorem isLowChar_iff {c : Char} : isLowChar c = true ↔ 97 ≤ c.toNat ∧ c.toNat ≤ 122 := by
  simp [isLowChar]

theorem isSepChar_iff {c : Char} :
    isSepChar c = true ↔
      c.toNat = 95 ∨ c.toNat = 45 ∨ c.toNat = 9 ∨ c.toNat = 10 ∨ c.toNat = 11 ∨
      c.toNat = 12 ∨ c.toNat = 13 ∨ c.toNat = 32 ∨ c.toNat = 160 ∨ c.toNat = 5760 ∨
      (8192 ≤ c.toNat ∧ c.toNat ≤ 8202) ∨ c.toNat = 8232 ∨ c.toNat = 8233 ∨
      c.toNat = 8239 ∨ c.toNat = 8287 ∨ c.toNat = 12288 ∨ c.toNat = 65279 := by
  simp [isSepChar]
  tauto

theorem toUpper_of_not_low {c : Char} (h : ¬(97 ≤ c.toNat ∧ c.toNat ≤ 122)) :
    Char.toUpper c = c := by
  unfold Char.toUpper
  simp only [ge_iff_le]
  rw [if_neg h]

theorem toLower_of_not_up {c : Char} (h : isUpChar c = false) : Char.toLower c = c := by
  unfold Char.toLower
  simp only [ge_iff_le]
  rw [if_neg]
  intro hc
  rw [← Bool.not_eq_true] at h
  exact h (isUpChar_iff.mpr hc)

theorem toUpper_of_up {c : Char} (h : isUpChar c = true) : Char.toUpper c = c := by
  apply toUpper_of_not_low
  have := isUpChar_iff.mp h
  omega

theorem toUpper_idem (c : Char) : Char.toUpper (Char.toUpper c) = Char.toUpper c := by
  apply char_eq_of_toNat_eq
  simp only [toUpper_toNat]
  split_ifs <;> omega

theorem isUp_toLower (c : Char) : isUpChar (Char.toLower c) = false := by
  rw [← Bool.not_eq_true, isUpChar_iff, toLower_toNat]
  split_ifs with h
  · omega
  · exact h

theorem isSep_toUpper (c : Char) : isSepChar (Char.toUpper c) = isSepChar c := by
  rw [Bool.eq_iff_iff, isSepChar_iff, isSepChar_iff, toUpper_toNat]
  split_ifs with h <;> omega

theorem isSep_toLower (c : Char) : isSepChar (Char.toLower c) = isSepChar c := by
  rw [Bool.eq_iff_iff, isSepChar_iff, isSepChar_iff, toLower_toNat]
  split_ifs with h <;> omega

theorem not_low_of_up {c : Char} (h : isUpChar c = true) : isLowChar c = false := by
  rw [← Bool.not_eq_true, isLowChar_iff]
  have := isUpChar_iff.mp h
  omega

/-! ### Idempotence of `_toPascalCase` -/

theorem map_id_of_fix {f : Char → Char} :
    ∀ (l : List Char), (∀ c ∈ l, f c = c) → l.map f = l
  | [], _ => rfl
  | c :: cs, h => by
    simp only [List.map_cons]
    rw [h c (List.mem_cons_self c cs),
      map_id_of_fix cs (fun x hx => h x (List.mem_cons_of_mem _ hx))]

theorem wordPascal_fix (w : List Char)
    (hw : ∀ h t, w = h :: t → Char.toUpper h = h ∧ ∀ c ∈ t, Char.toLower c = c) :
    wordPascal w = w := by
  cases w with
  | nil => rfl
  | cons h t =>
    obtain ⟨h1, h2⟩ := hw h t rfl
    simp only [wordPascal, h1, map_id_of_fix t h2]

theorem splitGo_fix (cs : List Char) : ∀ (acc : List Char), acc ≠ [] →
    (∀ c ∈ cs, isSepChar c = false) → accInv acc →
    ((splitGo false acc cs).map wordPascal).flatten = acc.reverse ++ cs := by
  induction cs with
  | nil =>
    intro acc _ _ hinv
    simp only [splitGo, List.map_cons, List.map_nil, List.flatten_cons,
      List.flatten_nil, List.append_nil]
    exact wordPascal_fix acc.reverse hinv
  | cons c rest ih =>
    intro acc hne hsep hinv
    have hc : isSepChar c = false := hsep c (List.mem_cons_self c rest)
    have hrest : ∀ x ∈ rest, isSepChar x = false :=
      fun x hx => hsep x (List.mem_cons_of_mem _ hx)
    rcases hrev : acc.reverse with _ | ⟨h0, t0⟩
    · exact absurd (List.reverse_eq_nil_iff.mp hrev) hne
    obtain ⟨hup0, hlow0⟩ := hinv h0 t0 hrev
    by_cases hu : isUpChar c = true
    · have hae : acc.isEmpty = false := by
        cases acc
        · exact absurd rfl hne
        · rfl
      have hinv1 : accInv [c] := by
        intro h t ht
        simp only [List.reverse_cons, List.reverse_nil, List.nil_append] at ht
        cases ht
        exact ⟨toUpper_of_up hu, by intro x hx; cases hx⟩
      simp only [splitGo, hc, Bool.false_eq_true, if_false, hu, if_true, hae,
        List.map_cons, List.flatten_cons]
      rw [ih [c] (by simp) hrest hinv1, wordPascal_fix acc.reverse hinv]
      simp [hrev]
    · have hu' : isUpChar c = false := by rwa [Bool.not_eq_true] at hu
      have hinv2 : accInv (c :: acc) := by
        intro h t ht
        simp only [List.reverse_cons, hrev, List.cons_append] at ht
        cases ht
        refine ⟨hup0, ?_⟩
        intro x hx
        rcases List.mem_append.mp hx with hx' | hx'
        · exact hlow0 x hx'
        · rw [List.mem_singleton.mp hx']
          exact toLower_of_not_up hu'
      simp only [splitGo, hc, Bool.false_eq_true, if_false, hu', if_false]
      rw [ih (c :: acc) (by simp) hrest hinv2]
      simp [hrev]

theorem pascalList_fix (cs : List Char)
    (hsep : ∀ c ∈ cs, isSepChar c = false)
    (hhead : ∀ h t, cs = h :: t → Char.toUpper h = h) : pascalList cs = cs := by
  cases cs with
  | nil => rfl
  | cons c rest =>
    have hc : isSepChar c = false := hsep c (List.mem_cons_self c rest)
    have hrest : ∀ x ∈ rest, isSepChar x = false :=
      fun x hx => hsep x (List.mem_cons_of_mem _ hx)
    have hinv : accInv [c] := by
      intro h t ht
      simp only [List.reverse_cons, List.reverse_nil, List.nil_append] at ht
      cases ht
      exact ⟨hhead c rest rfl, by intro x hx; cases hx⟩
    have hstep : splitWords (c :: rest) = splitGo false [c] rest := by
      unfold splitWords
      simp only [splitGo, hc, Bool.false_eq_true, if_false, List.isEmpty_nil, if_true]
      by_cases hu : isUpChar c = true
      · simp [hu]
      · have hu' : isUpChar c = false := by rwa [Bool.not_eq_true] at hu
        simp [hu']
    unfold pascalList
    rw [hstep, splitGo_fix rest [c] (by simp) hrest hinv]
    simp

theorem splitGo_no_sep (cs : List Char) : ∀ (inSep : Bool) (acc : List Char),
    (∀ c ∈ acc, isSepChar c = false) →
    ∀ w ∈ splitGo inSep acc cs, ∀ c ∈ w, isSepChar c = false := by
  induction cs with
  | nil =>
    intro inSep acc hacc w hw x hxw
    simp only [splitGo, List.mem_singleton] at hw
    subst hw
    exact hacc x (List.mem_reverse.mp hxw)
  | cons c rest ih =>
    intro inSep acc hacc w hw x hxw
    by_cases hc : isSepChar c = true
    · cases inSep with
      | true =>
        simp only [splitGo, hc, if_pos] at hw
        exact ih true [] (by intro y hy; cases hy) w hw x hxw
      | false =>
        simp only [splitGo, hc, if_pos] at hw
        rcases List.mem_cons.mp hw with hw1 | hw1
        · subst hw1
          exact hacc x (List.mem_reverse.mp hxw)
        · exact ih true [] (by intro y hy; cases hy) w hw1 x hxw
    · have hc' : isSepChar c = false := by rwa [Bool.not_eq_true] at hc
      have hacc1 : ∀ y ∈ [c], isSepChar y = false := by
        intro y hy
        rw [List.mem_singleton.mp hy]
        exact hc'
      by_cases hu : isUpChar c = true
      · by_cases hae : acc.isEmpty = true
        · simp only [splitGo, hc', Bool.false_eq_true, if_false, hu, if_true, hae] at hw
          exact ih false [c] hacc1 w hw x hxw
        · have hae' : acc.isEmpty = false := by rwa [Bool.not_eq_true] at hae
          simp only [splitGo, hc', Bool.false_eq_true, if_false, hu, if_true, hae'] at hw
          rcases List.mem_cons.mp hw with hw1 | hw1
          · subst hw1
            exact hacc x (List.mem_reverse.mp hxw)
          · exact ih false [c] hacc1 w hw1 x hxw
      · have hu' : isUpChar c = false := by rwa [Bool.not_eq_true] at hu
        simp only [splitGo, hc', Bool.false_eq_true, if_false, hu', if_false] at hw
        refine ih false (c :: acc) ?_ w hw x hxw
        intro y hy
        rcases List.mem_cons.mp hy with rfl | hy'
        · exact hc'
        · exact hacc y hy'

theorem pascalList_no_sep (cs : List Char) :
    ∀ c ∈ pascalList cs, isSepChar c = false := by
  intro x hx
  unfold pascalList at hx
  rw [List.mem_flatten] at hx
  obtain ⟨l, hl, hxl⟩ := hx
  rw [List.mem_map] at hl
  obtain ⟨w, hw, rfl⟩ := hl
  have hwsep : ∀ c ∈ w, isSepChar c = false :=
    splitGo_no_sep cs false [] (by intro y hy; cases hy) w hw
  cases w with
  | nil => cases hxl
  | cons h t =>
    simp only [wordPascal, List.mem_cons] at hxl
    rcases hxl with rfl | hxl
    · rw [isSep_toUpper]
      exact hwsep h (List.mem_cons_self h t)
    · rw [List.mem_map] at hxl
      obtain ⟨y, hy, rfl⟩ := hxl
      rw [isSep_toLower]
      exact hwsep y (List.mem_cons_of_mem _ hy)

theorem flatten_head_fix : ∀ (ws : List (List Char)),
    (∀ w ∈ ws, ∀ h t, w = h :: t → Char.toUpper h = h) →
    ∀ h t, ws.flatten = h :: t → Char.toUpper h = h := by
  intro ws
  induction ws with
  | nil =>
    intro _ h t ht
    simp at ht
  | cons w ws' ih =>
    intro hws h t ht
    cases w with
    | nil =>
      rw [List.flatten_cons, List.nil_append] at ht
      exact ih (fun w' hw' => hws w' (List.mem_cons_of_mem _ hw')) h t ht
    | cons a w'' =>
      have ha : Char.toUpper a = a := hws (a :: w'') (List.mem_cons_self _ _) a w'' rfl
      rw [List.flatten_cons, List.cons_append] at ht
      injection ht with h1 _
      rw [← h1]
      exact ha

theorem pascalList_head (cs : List Char) :
    ∀ h t, pascalList cs = h :: t → Char.toUpper h = h := by
  apply flatten_head_fix
  intro w hw h t hwt
  rw [List.mem_map] at hw
  obtain ⟨w0, _, rfl⟩ := hw
  cases w0 with
  | nil => cases hwt
  | cons a r =>
    simp only [wordPascal] at hwt
    cases hwt
    exact toUpper_idem a

/-! ### `_toPascalCase` on separator-only input -/

theorem splitGo_all_sep (cs : List Char) : ∀ (inSep : Bool),
    (∀ c ∈ cs, isSepChar c = true) →
    ((splitGo inSep [] cs).map wordPascal).flatten = [] := by
  induction cs with
  | nil =>
    intro inSep _
    rfl
  | cons c rest ih =>
    intro inSep hsep
    have hc : isSepChar c = true := hsep c (List.mem_cons_self c rest)
    have hrest : ∀ x ∈ rest, isSepChar x = true :=
      fun x hx => hsep x (List.mem_cons_of_mem _ hx)
    cases inSep with
    | true =>
      simp only [splitGo, hc, if_pos]
      exact ih true hrest
    | false =>
      simp only [splitGo, hc, if_pos, Bool.false_eq_true, if_false, List.map_cons,
        List.flatten_cons, List.reverse_nil]
      rw [ih true hrest]
      rfl

theorem pascalList_all_sep (cs : List Char) (hsep : ∀ c ∈ cs, isSepChar c = true) :
    pascalList cs = [] :=
  splitGo_all_sep cs false hsep

/-! ### `_toKebabCase`: characterisation and idempotence -/

theorem kebabList_eq_spec : ∀ cs : List Char, kebabList cs = kebabSpec cs
  | [] => rfl
  | [c] => rfl
  | c1 :: c2 :: rest => by
    by_cases h : (isLowChar c1 && isUpChar c2) = true
    · have hup : isUpChar c2 = true := (Bool.and_eq_true _ _ |>.mp h).2
      have hlow2 : isLowChar c2 = false := not_low_of_up hup
      simp only [kebabList, kebabRep, h, if_pos, List.map_cons, kebabSpec]
      have hdash : Char.toLower '-' = '-' := by decide
      rw [hdash]
      cases rest with
      | nil => simp [kebabSpec, kebabRep]
      | cons r rs =>
        have ih := kebabList_eq_spec (r :: rs)
        simp only [kebabSpec, hlow2, Bool.false_and, Bool.false_eq_true, if_false]
        rw [← ih]
        simp [kebabList]
    · have h' : (isLowChar c1 && isUpChar c2) = false := by
        rwa [Bool.not_eq_true] at h
      have ih := kebabList_eq_spec (c2 :: rest)
      simp only [kebabList, kebabRep, h', Bool.false_eq_true, if_false,
        List.map_cons, kebabSpec]
      rw [← ih]
      simp [kebabList]

theorem kebabRep_no_up : ∀ cs : List Char,
    (∀ c ∈ cs, isUpChar c = false) → kebabRep cs = cs
  | [] => fun _ => rfl
  | [c] => fun _ => rfl
  | c1 :: c2 :: rest => fun h => by
    have h2 : isUpChar c2 = false := h c2 (List.mem_cons_of_mem _ (List.mem_cons_self _ _))
    have hcond : (isLowChar c1 && isUpChar c2) = false := by
      rw [h2, Bool.and_false]
    simp only [kebabRep, hcond, Bool.false_eq_true, if_false]
    rw [kebabRep_no_up (c2 :: rest) (fun x hx => h x (List.mem_cons_of_mem _ hx))]

theorem kebabList_no_up (cs : List Char) : ∀ c ∈ kebabList cs, isUpChar c = false := by
  intro x hx
  unfold kebabList at hx
  rw [List.mem_map] at hx
  obtain ⟨y, _, rfl⟩ := hx
  exact isUp_toLower y

/-! ### Claim theorems -/

/-- Claim C1, counterexample: with the configured pattern `lowercase` and
raw name `"OrderTotal"`, the `classIdentifier` computed by `writing()` is
not `toPascalCase` of the raw name (the code applies `_toPascalCase` to the
already pattern-normalised name `"ordertotal"`, yielding `"Ordertotal"`,
while `_toPascalCase "OrderTotal" = "OrderTotal"`). -/
theorem classIdentifier_not_pascal_of_raw :
    (writing (some .lowercase) "usecase" "OrderTotal").className ≠
      _toPascalCase "OrderTotal" := by
  decide

/-- Claim C1, amended: the Normalize step produces `classIdentifier` by
applying `_toPascalCase` to the pattern-normalised folder name (the raw
name after the configured pattern conversion), not to the raw name; in
particular, under the `lowercase` pattern the raw name `"OrderTotal"`
yields `classIdentifier "Ordertotal"`. -/
theorem classIdentifier_pascal_of_normalized :
    (∀ (pat : Option Pattern) (schematic name : String),
      (writing pat schematic name).className = _toPascalCase (applyPattern pat name)) ∧
    (writing (some .lowercase) "usecase" "OrderTotal").className = "Ordertotal" :=
  ⟨fun _ _ _ => rfl, by decide⟩

/-- Claim C2: with schematic `"usecase"`, raw name `"OrderTotal"`, and the
kebab-case pattern, `writing()` targets folder `src/order-total`, file
`src/order-total/order-total.usecase.ts`, and substitutes
`classIdentifier "OrderTotal"` into the template. -/
theorem usecase_kebab_orderTotal :
    writing (some .kebabCase) "usecase" "OrderTotal" =
      { folder := "src/order-total"
        file := "src/order-total/order-total.usecase.ts"
        className := "OrderTotal" } := by
  decide

/-- Claim C3, counterexample: when the configuration artifact exists but
does not specify a scaffold pattern, the loaded pattern is `none` (not
kebab-case), and the folder derived for raw name `"UserProfile"` is
`src/UserProfile`, not the kebab-case conversion `src/user-profile`. -/
theorem missing_pattern_no_kebab_default :
    initializing true none = Except.ok none ∧
    (writing none "usecase" "UserProfile").folder ≠
      "src/" ++ _toKebabCase "UserProfile" :=
  ⟨rfl, by decide⟩

/-- Claim C3, amended: when the configuration artifact exists but does not
specify a scaffold pattern, the loaded pattern is `undefined` (`none`), the
`switch` in `writing()` matches no case, and the folder name is the raw
name unchanged. -/
theorem missing_pattern_leaves_name_unchanged :
    initializing true none = Except.ok none ∧
    ∀ (schematic name : String),
      (writing none schematic name).folder = "src/" ++ name ∧
      (writing none schematic name).className = _toPascalCase name :=
  ⟨rfl, fun _ _ => ⟨rfl, rfl⟩⟩

/-- Claim C4: `validate()` raises a fatal error exactly when the resolved
schematic kind is outside {usecase, controller, dto, service}; but the
error message for the offending value `"widget"` lists only
`usecase, controller, service` — it omits `dto`, which the same function's
allowed set accepts, so the message does not name the full allowed set. -/
theorem validate_message_omits_dto :
    (∀ k : String, validate k = none ↔ k ∈ schematicOptions) ∧
    validate "widget" =
      some "The schematic widget is not supported. Please use one of the following: usecase, controller, service" ∧
    "dto" ∈ schematicOptions ∧
    validate "dto" = none := by
  refine ⟨?_, by decide, by decide, by decide⟩
  intro k
  simp [validate, _schematicValidation, unsupportedMessage]

/-- Claim C5: when the configuration artifact is missing, the run aborts
with the config-missing error and issues no interactive prompt, for every
combination of configuration contents, CLI options, and prompt answers. -/
theorem config_missing_aborts_before_prompts :
    ∀ (cfg : Option Pattern) (optSchematic optName : Option String)
      (ansSchematic ansName : String),
      (run false cfg optSchematic optName ansSchematic ansName).prompts = [] ∧
      (run false cfg optSchematic optName ansSchematic ansName).outcome =
        Except.error configMissingMessage :=
  fun _ _ _ _ _ => ⟨rfl, rfl⟩

/-- Claim C6: `_toPascalCase` is idempotent — applying it twice gives the
same result as applying it once, for every string. -/
theorem toPascalCase_idem (s : String) :
    _toPascalCase (_toPascalCase s) = _toPascalCase s :=
  congrArg String.mk
    (pascalList_fix _ (pascalList_no_sep s.data) (pascalList_head s.data))

/-- Claim C7: `_toPascalCase` maps any input consisting solely of
separator characters (runs of underscore/hyphen/whitespace) to the empty
string, maps the empty string to the empty string, and on the three
reference inputs splits at separator runs and before uppercase letters,
capitalising each word: `"user_profile"`, `"user-profile"` and
`"userProfile"` all map to `"UserProfile"`. -/
theorem toPascalCase_splitting_spec :
    (∀ cs : List Char, (∀ c ∈ cs, isSepChar c = true) → pascalList cs = []) ∧
    _toPascalCase "" = "" ∧
    _toPascalCase "user_profile" = "UserProfile" ∧
    _toPascalCase "user-profile" = "UserProfile" ∧
    _toPascalCase "userProfile" = "UserProfile" :=
  ⟨pascalList_all_sep, by decide, by decide, by decide, by decide⟩

/-- Witness for C7's separator-only clause at the concrete input
`"_- "`. -/
theorem toPascalCase_splitting_spec_witness :
    (∀ c ∈ ['_', '-', ' '], isSepChar c = true) ∧ pascalList ['_', '-', ' '] = [] :=
  ⟨by decide, toPascalCase_splitting_spec.1 ['_', '-', ' '] (by decide)⟩

/-- Claim C8: `_toKebabCase` agrees with the specification-side
`kebabSpec` (a hyphen between every adjacent lowercase-then-uppercase pair,
then lowercase everything) on every string, maps `"UserProfile"` to
`"user-profile"`, leaves `"already-kebab"` unchanged, and does not split
underscore or space boundaries. -/
theorem toKebabCase_spec :
    (∀ s : String, _toKebabCase s = String.mk (kebabSpec s.data)) ∧
    _toKebabCase "UserProfile" = "user-profile" ∧
    _toKebabCase "already-kebab" = "already-kebab" ∧
    _toKebabCase "user_profile" = "user_profile" ∧
    _toKebabCase "with space" = "with space" :=
  ⟨fun s => congrArg String.mk (kebabList_eq_spec s.data),
    by decide, by decide, by decide, by decide⟩

/-- Claim C9: `writing()` emits exactly one artifact — the generated
source file — independently of the `spec` option's value, although the
option is declared with default `true` and described as controlling a
companion spec file; no companion spec artifact is ever emitted. -/
theorem spec_option_unused :
    specOptionDefault = true ∧
    (∀ (b₁ b₂ : Bool) (pat : Option Pattern) (schematic name : String),
      writingEmittedFiles b₁ pat schematic name =
        writingEmittedFiles b₂ pat schematic name) ∧
    writingEmittedFiles true (some .kebabCase) "usecase" "OrderTotal" =
      ["src/order-total/order-total.usecase.ts"] ∧
    writingEmittedFiles false (some .kebabCase) "usecase" "OrderTotal" =
      ["src/order-total/order-total.usecase.ts"] :=
  ⟨rfl, fun _ _ _ _ _ => rfl, by decide, by decide⟩

/-- Claim C10: `_toKebabCase` is idempotent — its output is entirely
lowercase, so a second application finds no lowercase-then-uppercase pair
to split and lowercasing again changes nothing. -/
theorem toKebabCase_idem (s : String) :
    _toKebabCase (_toKebabCase s) = _toKebabCase s := by
  apply congrArg String.mk
  have h1 : kebabRep (kebabList s.data) = kebabList s.data :=
    kebabRep_no_up _ (kebabList_no_up s.data)
  calc kebabList (kebabList s.data)
      = (kebabRep (kebabList s.data)).map Char.toLower := rfl
    _ = (kebabList s.data).map Char.toLower := by rw [h1]
    _ = kebabList s.data :=
        map_id_of_fix _ (fun c hc => toLower_of_not_up (kebabList_no_up s.data c hc))

end Expresso
